import Mathlib

/- Verification of the number-line fraction model of the tldraw-number-line
repository: a shallow embedding of the arithmetic and interaction logic in
src/components/NumberLineShape.tsx, together with the auto-resize rules of
src/components/FractionShape.tsx and src/components/MixedNumberShape.tsx.

Modelling conventions: JavaScript numbers are modelled as rationals (ℚ); the
integer-valued quantities (fraction numerators and denominators, the partition)
are modelled as ℤ / ℕ.  On integer inputs `Math.round` is the identity and
`Math.abs` is `Int.natAbs`; on rationals, `Math.round x` is `⌊x + 1/2⌋`, which
is Mathlib's `round`; `Math.floor(n/d)` on integers is `Int.fdiv`; the
JavaScript `%` operator (sign of the dividend) is `Int.tmod`.  Event-handler
state updates are modelled by returning the property patch that the handler
passes to `editor.updateShape` (`none` when no update is issued), together with
the flag recording whether `e.stopPropagation()` was called. -/

/- Batteries marks the `Rat` arithmetic operations irreducible, which blocks
`decide` on concrete rational computations; restore reducibility so that the
executable definitions below evaluate. -/
set_option allowUnsafeReducibility true
attribute [semireducible] Rat.sub Rat.add Rat.mul Rat.inv Rat.ofScientific

namespace NumberLine

/- Data model, from NumberLineShape.tsx lines 15-23.  A dot's `showMixed` is an
optional boolean in the source; `undefined` behaves as `false` everywhere it is
read (`!dot.showMixed` and the truthiness tests), so it is modelled as a `Bool`
defaulting to `false`. -/
structure Dot where
  numerator : ℤ
  denominator : ℤ
  showMixed : Bool := false
deriving DecidableEq

/- NumberLineShape props that the model logic reads (w, h, startValue,
endValue, partition, dots).  `partition` is a positive integer per the input
control; it is carried as ℕ and positivity is a hypothesis where needed. -/
structure NLProps where
  w : ℚ
  h : ℚ
  startValue : ℚ
  endValue : ℚ
  partition : ℕ
  dots : List Dot
deriving DecidableEq

/- dotToPosition, NumberLineShape.tsx lines 29-31. -/
def dotToPosition (dot : Dot) (startValue : ℚ) : ℚ :=
  startValue + (dot.numerator : ℚ) / (dot.denominator : ℚ)

/- gcd, NumberLineShape.tsx lines 34-43: Euclidean loop
`while (b) { t = b; b = a % b; a = t }` on `Math.abs(Math.round _)` of the
arguments.  On the integer inputs of this model `Math.round` is the identity,
so the loop runs on the absolute values. -/
def gcdLoop (a b : ℕ) : ℕ :=
  if h : b = 0 then a else gcdLoop b (a % b)
termination_by b
decreasing_by exact Nat.mod_lt a (Nat.pos_of_ne_zero h)

def gcd (a b : ℤ) : ℤ := (gcdLoop a.natAbs b.natAbs : ℕ)

structure Fraction where
  numerator : ℤ
  denominator : ℤ
deriving DecidableEq

/- simplifyFraction, NumberLineShape.tsx lines 46-49.  The source divides in
floating point; the divisor is the gcd of the two integers, so both divisions
are exact and agree with integer division. -/
def simplifyFraction (numerator denominator : ℤ) : Fraction :=
  let divisor := gcd numerator denominator
  ⟨numerator / divisor, denominator / divisor⟩

structure MixedNumber where
  whole : ℤ
  numerator : ℤ
  denominator : ℤ
deriving DecidableEq

/- toMixedNumber, NumberLineShape.tsx lines 52-61.  `Math.floor(n/d)` is
`Int.fdiv`, the JavaScript `%` is `Int.tmod`. -/
def toMixedNumber (numerator denominator : ℤ) : Option MixedNumber :=
  if numerator < denominator then none
  else
    let whole := Int.fdiv numerator denominator
    let remainder := Int.tmod numerator denominator
    let simplified := simplifyFraction remainder denominator
    some ⟨whole, simplified.numerator, simplified.denominator⟩

/- Per-dot label rendering selector, NumberLineShape.tsx lines 374-489: a dot
shows a mixed number with a fraction part when `mixed && mixed.numerator > 0`,
only the whole number when `mixed && mixed.numerator === 0`, and the stored
improper fraction otherwise. -/
inductive DotLabel where
  | mixedWithFraction (whole numerator denominator : ℤ)
  | wholeOnly (whole : ℤ)
  | improperFraction (numerator denominator : ℤ)
deriving DecidableEq

def dotLabel (dot : Dot) : DotLabel :=
  let mixed := if dot.showMixed then toMixedNumber dot.numerator dot.denominator else none
  match mixed with
  | some m =>
    if 0 < m.numerator then .mixedWithFraction m.whole m.numerator m.denominator
    else if m.numerator = 0 then .wholeOnly m.whole
    else .improperFraction dot.numerator dot.denominator
  | none => .improperFraction dot.numerator dot.denominator

/- Layout constants and derived quantities, NumberLineShape.tsx lines 96-108. -/
def padding : ℚ := 40

def lineY (p : NLProps) : ℚ := p.h / 2

def lineStart : ℚ := padding

def lineEnd (p : NLProps) : ℚ := p.w - padding

def lineLength (p : NLProps) : ℚ := lineEnd p - lineStart

def valueRange (p : NLProps) : ℚ := p.endValue - p.startValue

def isValidRange (p : NLProps) : Prop := 0 < valueRange p

instance (p : NLProps) : Decidable (isValidRange p) :=
  inferInstanceAs (Decidable (_ < _))

def totalSegments (p : NLProps) : ℚ :=
  if isValidRange p then valueRange p * (p.partition : ℚ) else 1

def segmentWidth (p : NLProps) : ℚ :=
  if isValidRange p then lineLength p / totalSegments p else lineLength p

/- Tick generation, NumberLineShape.tsx lines 110-136. -/
structure Tick where
  x : ℚ
  value : ℚ
  isInteger : Bool
  label : Option ℤ
  fractionLabel : Option (ℤ × ℤ)
deriving DecidableEq

/- Body of the loop at index i. -/
def tickAt (p : NLProps) (i : ℕ) : Tick :=
  let x := lineStart + (i : ℚ) * segmentWidth p
  let value := p.startValue + (i : ℚ) / (p.partition : ℚ)
  let isInteger : Bool := i % p.partition == 0
  let isFirstPartition : Bool := decide (1 < p.partition) && (i == 1)
  { x := x
    value := value
    isInteger := isInteger
    label := if isInteger then some (round value) else none
    fractionLabel :=
      if isInteger then none
      else if isFirstPartition then some (1, (p.partition : ℤ)) else none }

/- The loop `for (let i = 0; i <= totalSegments; i++)` runs exactly for the
natural numbers i with (i : ℚ) ≤ totalSegments, i.e. i ≤ ⌊totalSegments⌋;
when the range is valid totalSegments > 0, so that is i < ⌊totalSegments⌋ + 1. -/
def tickCount (p : NLProps) : ℕ :=
  if isValidRange p then (⌊totalSegments p⌋).toNat + 1 else 0

def genTicks (p : NLProps) : List Tick :=
  (List.range (tickCount p)).map (tickAt p)

/- Rendered x-position of a dot, NumberLineShape.tsx lines 154-155 (the same
expression recurs at lines 187-188 and 375-376). -/
def dotX (p : NLProps) (dot : Dot) : ℚ :=
  lineStart + ((dotToPosition dot p.startValue - p.startValue) / valueRange p) * lineLength p

/- Fraction-label hot-zone test, NumberLineShape.tsx lines 153-160. -/
def inFractionLabelZone (p : NLProps) (clickX clickY : ℚ) (dot : Dot) : Bool :=
  decide (|dotX p dot - clickX| < 20) &&
    (decide (clickY ≥ lineY p - 50) && decide (clickY ≤ lineY p - 10))

/- Existing-dot proximity test, NumberLineShape.tsx lines 186-190. -/
def nearDot (p : NLProps) (clickX : ℚ) (dot : Dot) : Bool :=
  decide (|dotX p dot - clickX| < 12)

/- Array.prototype.findIndex, as used at lines 153 and 186; `none` models the
-1 "not found" result. -/
def findIdxO {α : Type} (pred : α → Bool) : List α → Option ℕ
  | [] => none
  | a :: l => if pred a then some 0 else (findIdxO pred l).map (· + 1)

/- The copy-and-replace updates of the dots array: lines 165-169 build a copy
with entry i replaced by a showMixed-toggled copy, lines 194-195 build a copy
with entry i spliced out, line 221 appends a new dot to a copy. -/
def toggleMixed (d : Dot) : Dot := { d with showMixed := !d.showMixed }

def modifyIdx {α : Type} (f : α → α) : ℕ → List α → List α
  | _, [] => []
  | 0, a :: l => f a :: l
  | n + 1, a :: l => a :: modifyIdx f n l

def removeIdx {α : Type} : ℕ → List α → List α
  | _, [] => []
  | 0, _ :: l => l
  | n + 1, a :: l => a :: removeIdx n l

/- Nearest-tick scan, NumberLineShape.tsx lines 204-214: `snappedTick` starts
at `ticks[0]` and `minDistance` at Infinity, then every tick whose distance is
strictly below the current minimum replaces the candidate.  `none` as the
second accumulator component models the initial Infinity (every distance
compares below it). -/
def snapStep (clickX : ℚ) (acc : Tick × Option ℚ) (tick : Tick) : Tick × Option ℚ :=
  let distance := |tick.x - clickX|
  match acc.2 with
  | none => (tick, some distance)
  | some m => if distance < m then (tick, some distance) else acc

def snapTick (clickX : ℚ) : List Tick → Option Tick
  | [] => none
  | t0 :: rest => some (((t0 :: rest).foldl (snapStep clickX) (t0, none)).1)

/- Recursive form of the scan after its first iteration (the first iteration
always replaces the Infinity minimum by the head tick's distance); used to
reason about the fold. -/
def snapGo (clickX : ℚ) : List Tick → Tick → ℚ → Tick
  | [], b, _ => b
  | t :: rest, b, m =>
    if |t.x - clickX| < m then snapGo clickX rest t |t.x - clickX|
    else snapGo clickX rest b m

/- Result of one pointer-down on the shape: the dots patch passed to
`editor.updateShape` (`none` when no update is issued) and whether
`e.stopPropagation()` ran. -/
structure ClickResult where
  patch : Option (List Dot)
  stopped : Bool
deriving DecidableEq

/- handleLineClick, NumberLineShape.tsx lines 139-227.  The client-to-local
coordinate conversion (zoom and bounding rectangle, lines 147-150) is outside
the model: clickX/clickY are already shape-local.  In the unreachable case of
an empty tick list after a valid-range check (the source would dereference
`undefined`), propagation has already been stopped and no update is issued. -/
def handleLineClick (p : NLProps) (currentTool : String) (clickX clickY : ℚ) :
    ClickResult :=
  if currentTool ≠ "select" then ⟨none, false⟩
  else if ¬ isValidRange p then ⟨none, false⟩
  else
    match findIdxO (inFractionLabelZone p clickX clickY) p.dots with
    | some i => ⟨some (modifyIdx toggleMixed i p.dots), true⟩
    | none =>
      if clickY < lineY p - 25 ∨ clickY > lineY p + 25 then ⟨none, false⟩
      else if clickX < lineStart - 10 ∨ clickX > lineEnd p + 10 then ⟨none, false⟩
      else
        match findIdxO (nearDot p clickX) p.dots with
        | some i => ⟨some (removeIdx i p.dots), true⟩
        | none =>
          match snapTick clickX (genTicks p) with
          | none => ⟨none, true⟩
          | some t =>
            ⟨some (p.dots ++
              [⟨round ((t.value - p.startValue) * (p.partition : ℚ)), (p.partition : ℤ), false⟩]),
              true⟩

/- Invalid-range placeholder, NumberLineShape.tsx lines 496-507: the
explanatory text is rendered exactly when the range is not valid. -/
def placeholderShown (p : NLProps) : Bool := decide (¬ isValidRange p)

end NumberLine

namespace FractionShape

/- FractionShape.tsx props (w, h, numerator, denominator). -/
structure FractionProps where
  w : ℚ
  h : ℚ
  numerator : String
  denominator : String
deriving DecidableEq

/- autoResizeIfNeeded, FractionShape.tsx lines 337-349: needed width from the
new field texts, updateShape with a w-only patch when it exceeds the current
width. -/
def neededWidth (p : FractionProps) (newNumerator newDenominator : String) : ℚ :=
  let maxLen : ℕ := max (max newNumerator.length newDenominator.length) 1
  let currentFontSize := min p.w p.h * (35 / 100)
  max 60 ((maxLen : ℚ) * currentFontSize * (7 / 10) + 20)

def autoResizeIfNeeded (p : FractionProps) (newNumerator newDenominator : String) :
    FractionProps :=
  if neededWidth p newNumerator newDenominator > p.w then
    { p with w := neededWidth p newNumerator newDenominator }
  else p

end FractionShape

namespace MixedNumberShape

/- MixedNumberShape.tsx props (w, h, whole, numerator, denominator, suffix). -/
structure MixedProps where
  w : ℚ
  h : ℚ
  whole : String
  numerator : String
  denominator : String
  suffix : String
deriving DecidableEq

/- autoResizeIfNeeded, MixedNumberShape.tsx lines 72-89.  The suffix term is
guarded by JavaScript truthiness of the suffix string: present iff nonempty. -/
def neededWidth (p : MixedProps)
    (newWhole newNumerator newDenominator newSuffix : String) : ℚ :=
  let currentFontSize := min p.w p.h * (35 / 100)
  let wholeFontSize := currentFontSize * (14 / 10)
  let wholeWidth := max 20 ((newWhole.length : ℚ) * wholeFontSize * (7 / 10) + 5)
  let fractionMaxLen : ℕ := max (max newNumerator.length newDenominator.length) 1
  let fractionWidth := max 20 ((fractionMaxLen : ℚ) * currentFontSize * (7 / 10) + 5)
  let suffixWidth := (newSuffix.length : ℚ) * currentFontSize * (6 / 10)
  let gap : ℚ := 2
  wholeWidth + gap + fractionWidth +
    (if newSuffix ≠ "" then gap + suffixWidth else 0) + 10

def autoResizeIfNeeded (p : MixedProps)
    (newWhole newNumerator newDenominator newSuffix : String) : MixedProps :=
  if neededWidth p newWhole newNumerator newDenominator newSuffix > p.w then
    { p with w := neededWidth p newWhole newNumerator newDenominator newSuffix }
  else p

end MixedNumberShape

namespace NumberLine

/- The Euclidean loop of the source computes Nat.gcd with its arguments
swapped. -/
theorem gcdLoop_eq_gcd : ∀ b a : ℕ, gcdLoop a b = Nat.gcd b a := by
  intro b
  induction b using Nat.strong_induction_on with
  | _ b ih =>
    intro a
    rw [gcdLoop]
    by_cases h : b = 0
    · simp [h]
    · rw [dif_neg h, ih (a % b) (Nat.mod_lt _ (Nat.pos_of_ne_zero h)) b]
      exact (Nat.gcd_rec b a).symm

theorem gcd_eq_intGcd (a b : ℤ) : gcd a b = (Int.gcd a b : ℤ) := by
  unfold gcd
  rw [gcdLoop_eq_gcd, Nat.gcd_comm]
  rfl

theorem simplifyFraction_eq (n d : ℤ) :
    simplifyFraction n d = ⟨n / (Int.gcd n d : ℤ), d / (Int.gcd n d : ℤ)⟩ := by
  simp only [simplifyFraction, gcd_eq_intGcd]

/- Core correctness of simplifyFraction for a nonzero denominator: the
denominator stays nonzero, the rational value is preserved, and the result is
in lowest terms. -/
theorem simplifyFraction_spec (n d : ℤ) (hd : d ≠ 0) :
    (simplifyFraction n d).denominator ≠ 0 ∧
    ((simplifyFraction n d).numerator : ℚ) / ((simplifyFraction n d).denominator : ℚ)
      = (n : ℚ) / (d : ℚ) ∧
    Int.gcd (simplifyFraction n d).numerator (simplifyFraction n d).denominator = 1 := by
  simp only [simplifyFraction_eq]
  have hgpos : 0 < Int.gcd n d :=
    Nat.pos_of_ne_zero (fun h => hd (Int.gcd_eq_zero_iff.mp h).2)
  have hgz : (Int.gcd n d : ℤ) ≠ 0 := by
    exact_mod_cast Nat.pos_iff_ne_zero.mp hgpos
  have hn : (Int.gcd n d : ℤ) * (n / (Int.gcd n d : ℤ)) = n :=
    Int.mul_ediv_cancel' Int.gcd_dvd_left
  have hdd : (Int.gcd n d : ℤ) * (d / (Int.gcd n d : ℤ)) = d :=
    Int.mul_ediv_cancel' Int.gcd_dvd_right
  refine ⟨?_, ?_, ?_⟩
  · intro h0
    apply hd
    rw [← hdd, h0, mul_zero]
  · have hgQ : ((Int.gcd n d : ℤ) : ℚ) ≠ 0 := Int.cast_ne_zero.mpr hgz
    calc ((n / (Int.gcd n d : ℤ) : ℤ) : ℚ) / ((d / (Int.gcd n d : ℤ) : ℤ) : ℚ)
        = (((Int.gcd n d : ℤ) : ℚ) * ((n / (Int.gcd n d : ℤ) : ℤ) : ℚ)) /
            (((Int.gcd n d : ℤ) : ℚ) * ((d / (Int.gcd n d : ℤ) : ℤ) : ℚ)) := by
          rw [mul_div_mul_left _ _ hgQ]
      _ = (n : ℚ) / (d : ℚ) := by
          rw [← Int.cast_mul, ← Int.cast_mul, hn, hdd]
  · exact Int.gcd_div_gcd_div_gcd hgpos

/-- C1: for all integers n, d with d ≠ 0, simplifyFraction(n, d) returns a pair
(n', d') with n'/d' = n/d (as rationals) and gcd(n', d') = 1. -/
theorem C1_simplifyFraction_correct (n d : ℤ) (hd : d ≠ 0) :
    ((simplifyFraction n d).numerator : ℚ) / ((simplifyFraction n d).denominator : ℚ)
      = (n : ℚ) / (d : ℚ) ∧
    Int.gcd (simplifyFraction n d).numerator (simplifyFraction n d).denominator = 1 :=
  ⟨(simplifyFraction_spec n d hd).2.1, (simplifyFraction_spec n d hd).2.2⟩

/-- Witness for C1 at n = 6, d = 4. -/
theorem C1_simplifyFraction_correct_witness :
    ((simplifyFraction 6 4).numerator : ℚ) / ((simplifyFraction 6 4).denominator : ℚ)
      = (6 : ℚ) / (4 : ℚ) ∧
    Int.gcd (simplifyFraction 6 4).numerator (simplifyFraction 6 4).denominator = 1 :=
  C1_simplifyFraction_correct 6 4 (by decide)

/- Math.floor of an integer quotient, as a rational floor. -/
theorem fdiv_eq_floor_div (n d : ℤ) (hd : 0 < d) :
    Int.fdiv n d = ⌊(n : ℚ) / (d : ℚ)⌋ := by
  have h1 : d = (d.toNat : ℤ) := (Int.toNat_of_nonneg hd.le).symm
  rw [Int.fdiv_eq_ediv _ hd.le, h1]
  have h2 := Rat.floor_intCast_div_natCast n d.toNat
  push_cast
  push_cast at h2
  exact h2.symm

/-- C2: toMixedNumber(n, d) returns none for n < d; and for n ≥ d > 0 it
returns whole = ⌊n/d⌋ together with a simplified remainder fraction of value
(n mod d)/d, strictly less than 1. -/
theorem C2_toMixedNumber_contract (n d : ℤ) :
    (n < d → toMixedNumber n d = none) ∧
    (d ≤ n → 0 < d →
      ∃ m : MixedNumber, toMixedNumber n d = some m ∧
        m.whole = ⌊(n : ℚ) / (d : ℚ)⌋ ∧
        (m.numerator : ℚ) / (m.denominator : ℚ) = ((n % d : ℤ) : ℚ) / (d : ℚ) ∧
        (m.numerator : ℚ) / (m.denominator : ℚ) < 1 ∧
        Int.gcd m.numerator m.denominator = 1) := by
  constructor
  · intro h
    simp [toMixedNumber, h]
  · intro hdn hd
    have hnn : 0 ≤ n := le_trans hd.le hdn
    have hmod : Int.tmod n d = n % d := Int.tmod_eq_emod hnn hd.le
    have hspec := simplifyFraction_spec (Int.tmod n d) d hd.ne'
    refine ⟨⟨Int.fdiv n d, (simplifyFraction (Int.tmod n d) d).numerator,
        (simplifyFraction (Int.tmod n d) d).denominator⟩, ?_, ?_, ?_, ?_, ?_⟩
    · simp [toMixedNumber, not_lt.mpr hdn]
    · exact fdiv_eq_floor_div n d hd
    · rw [hspec.2.1, hmod]
    · rw [hspec.2.1, hmod]
      have hlt : (n % d : ℤ) < d := Int.emod_lt_of_pos n hd
      have hdQ : (0 : ℚ) < (d : ℚ) := by exact_mod_cast hd
      rw [div_lt_one hdQ]
      exact_mod_cast hlt
    · exact hspec.2.2

/-- Witness for C2: at n = 2, d = 3 conversion is not applicable; at n = 7,
d = 3 it returns whole 2 and a simplified remainder below 1. -/
theorem C2_toMixedNumber_contract_witness :
    toMixedNumber 2 3 = none ∧
    (∃ m : MixedNumber, toMixedNumber 7 3 = some m ∧
      m.whole = ⌊(7 : ℚ) / (3 : ℚ)⌋ ∧
      (m.numerator : ℚ) / (m.denominator : ℚ) = (((7 : ℤ) % 3 : ℤ) : ℚ) / (3 : ℚ) ∧
      (m.numerator : ℚ) / (m.denominator : ℚ) < 1 ∧
      Int.gcd m.numerator m.denominator = 1) :=
  ⟨(C2_toMixedNumber_contract 2 3).1 (by decide),
   (C2_toMixedNumber_contract 7 3).2 (by decide) (by decide)⟩

/-- C10: for every positive d, simplifyFraction(0, d) = (0, 1), so a dot whose
numerator is the k-th multiple of its denominator converts to whole k with
remainder 0/1, which selects the whole-number-only display. -/
theorem C10_zero_remainder_simplifies (d : ℤ) (hd : 0 < d) :
    simplifyFraction 0 d = ⟨0, 1⟩ ∧
    ∀ k : ℤ, 1 ≤ k →
      toMixedNumber (k * d) d = some ⟨k, 0, 1⟩ ∧
      dotLabel ⟨k * d, d, true⟩ = DotLabel.wholeOnly k := by
  have hsimp : simplifyFraction 0 d = ⟨0, 1⟩ := by
    rw [simplifyFraction_eq]
    have hg : (Int.gcd 0 d : ℤ) = d := by
      rw [Int.gcd]
      simp [Int.natAbs_of_nonneg hd.le]
    rw [hg, Int.zero_ediv, Int.ediv_self hd.ne']
  refine ⟨hsimp, fun k hk => ?_⟩
  have hle : d ≤ k * d := le_mul_of_one_le_left hd.le hk
  have hmix : toMixedNumber (k * d) d = some ⟨k, 0, 1⟩ := by
    have hnn : 0 ≤ k * d := mul_nonneg (le_trans zero_le_one hk) hd.le
    have hmod : Int.tmod (k * d) d = 0 := by
      rw [Int.tmod_eq_emod hnn hd.le]
      exact Int.mul_emod_left k d
    have hfd : Int.fdiv (k * d) d = k := by
      rw [Int.fdiv_eq_ediv _ hd.le]
      exact Int.mul_ediv_cancel k hd.ne'
    simp only [toMixedNumber, not_lt.mpr hle, if_false, hmod, hfd, hsimp]
  refine ⟨hmix, ?_⟩
  simp [dotLabel, hmix]

theorem genTicks_length (p : NLProps) : (genTicks p).length = tickCount p := by
  simp [genTicks]

theorem genTicks_get (p : NLProps) (i : ℕ) (h : i < (genTicks p).length) :
    (genTicks p).get ⟨i, h⟩ = tickAt p i := by
  simp [genTicks, List.get_eq_getElem]

/- Justification of tickCount: for a valid range the loop guard i ≤
totalSegments holds for a natural i exactly when i < ⌊totalSegments⌋ + 1. -/
theorem totalSegments_nonneg (p : NLProps) (hv : isValidRange p) :
    0 ≤ totalSegments p := by
  rw [totalSegments, if_pos hv]
  exact mul_nonneg (le_of_lt hv) (by positivity)

theorem loop_guard_iff_lt_tickCount (p : NLProps) (hv : isValidRange p) (i : ℕ) :
    (i : ℚ) ≤ totalSegments p ↔ i < tickCount p := by
  have h0 : 0 ≤ ⌊totalSegments p⌋ := Int.floor_nonneg.mpr (totalSegments_nonneg p hv)
  rw [tickCount, if_pos hv, Nat.lt_succ_iff, Int.le_toNat h0, Int.le_floor]
  push_cast
  exact Iff.rfl

/-- Counterexample for C4 as stated: at w = 520, h = 100, startValue = 0,
endValue = 1, partition = 4 the claimed tick count totalSegments is 4, but the
generation loop (indices 0..totalSegments inclusive) produces 5 ticks. -/
theorem C4_tick_count_counterexample :
    totalSegments ⟨520, 100, 0, 1, 4, []⟩ = 4 ∧
    ((genTicks ⟨520, 100, 0, 1, 4, []⟩).length : ℚ) ≠ totalSegments ⟨520, 100, 0, 1, 4, []⟩ ∧
    (genTicks ⟨520, 100, 0, 1, 4, []⟩).length = 5 := by
  refine ⟨by decide, ?_, by decide⟩
  decide

/-- C4 (amended): for endValue > startValue the code generates one tick per
index i = 0..totalSegments inclusive — that is ⌊totalSegments⌋ + 1 ticks, with
totalSegments = (endValue − startValue) · partition — evenly spaced at
segmentWidth intervals from lineStart, tick i having value
startValue + i/partition; for endValue ≤ startValue it generates no ticks. -/
theorem C4_tick_generation (p : NLProps) :
    (isValidRange p →
      ((genTicks p).length : ℤ) = ⌊totalSegments p⌋ + 1 ∧
      ∀ i (h : i < (genTicks p).length),
        ((genTicks p).get ⟨i, h⟩).value = p.startValue + (i : ℚ) / (p.partition : ℚ) ∧
        ((genTicks p).get ⟨i, h⟩).x = lineStart + (i : ℚ) * segmentWidth p) ∧
    (¬ isValidRange p → genTicks p = []) := by
  constructor
  · intro hv
    constructor
    · rw [genTicks_length, tickCount, if_pos hv]
      have h0 : 0 ≤ ⌊totalSegments p⌋ := Int.floor_nonneg.mpr (totalSegments_nonneg p hv)
      push_cast [Int.toNat_of_nonneg h0]
      ring
    · intro i h
      rw [genTicks_get]
      exact ⟨rfl, rfl⟩
  · intro hv
    simp [genTicks, tickCount, if_neg hv]

/-- Witness for C4 (amended) at startValue 0, endValue 3, partition 1: four
ticks, matching ⌊totalSegments⌋ + 1 = 4. -/
theorem C4_tick_generation_witness :
    ((genTicks ⟨520, 100, 0, 3, 1, []⟩).length : ℤ)
      = ⌊totalSegments ⟨520, 100, 0, 3, 1, []⟩⌋ + 1 ∧
    ((genTicks ⟨520, 100, 0, 3, 1, []⟩).get
        ⟨2, by decide⟩).value = 0 + (2 : ℚ) / (1 : ℚ) :=
  ⟨((C4_tick_generation ⟨520, 100, 0, 3, 1, []⟩).1 (by decide)).1,
   (((C4_tick_generation ⟨520, 100, 0, 3, 1, []⟩).1 (by decide)).2 2 (by decide)).1⟩

/-- C5: generated tick i is an integer tick exactly when i % partition = 0 and
then carries the rounded integer label and no fraction label; when
partition > 1, tick i = 1 carries the static 1/partition fraction label; every
other non-integer tick carries no label.  Concretely, startValue 0, endValue 1,
partition 4 yields 5 ticks at 0, 1/4, 1/2, 3/4, 1, with only indices 0 and 4
integer ticks and index 1 carrying the 1/4 fraction label. -/
theorem C5_tick_labels (p : NLProps) :
    (∀ i (h : i < (genTicks p).length),
      (((genTicks p).get ⟨i, h⟩).isInteger = true ↔ i % p.partition = 0) ∧
      (i % p.partition = 0 →
        ((genTicks p).get ⟨i, h⟩).label
            = some (round (((genTicks p).get ⟨i, h⟩).value)) ∧
        ((genTicks p).get ⟨i, h⟩).fractionLabel = none) ∧
      (1 < p.partition → i = 1 →
        ((genTicks p).get ⟨i, h⟩).fractionLabel = some (1, (p.partition : ℤ)) ∧
        ((genTicks p).get ⟨i, h⟩).label = none) ∧
      (¬ i % p.partition = 0 → ¬(1 < p.partition ∧ i = 1) →
        ((genTicks p).get ⟨i, h⟩).label = none ∧
        ((genTicks p).get ⟨i, h⟩).fractionLabel = none)) ∧
    ((genTicks ⟨520, 100, 0, 1, 4, []⟩).map Tick.value = [0, 1/4, 1/2, 3/4, 1] ∧
     (genTicks ⟨520, 100, 0, 1, 4, []⟩).map Tick.isInteger
        = [true, false, false, false, true] ∧
     (genTicks ⟨520, 100, 0, 1, 4, []⟩).map Tick.fractionLabel
        = [none, some (1, 4), none, none, none]) := by
  constructor
  · intro i h
    rw [genTicks_get]
    by_cases hi : i % p.partition = 0
    · refine ⟨by simp [tickAt, hi], fun _ => ⟨by simp [tickAt, hi], by simp [tickAt, hi]⟩,
        fun hp h1 => absurd hi ?_, fun hni _ => absurd hi hni⟩
      subst h1
      simp [Nat.mod_eq_of_lt hp]
    · have hbeq : (i % p.partition == 0) = false := by simp [hi]
      refine ⟨by simp [tickAt, hbeq, hi], fun h0 => absurd h0 hi, fun hp h1 => ?_,
        fun _ hn => ?_⟩
      · subst h1
        constructor
        · simp [tickAt, hbeq, hp]
        · simp [tickAt, hbeq]
      · constructor
        · simp [tickAt, hbeq]
        · have hff : (decide (1 < p.partition) && (i == 1)) = false := by
            by_cases hp2 : 1 < p.partition
            · have h1 : i ≠ 1 := fun h1 => hn ⟨hp2, h1⟩
              simp [h1]
            · simp [hp2]
          simp [tickAt, hbeq, hff]
  · exact ⟨by decide, by decide, by decide⟩

/-- Witness for C5 at startValue 0, endValue 1, partition 4, i = 1: the tick
carries the 1/4 fraction label and no integer label. -/
theorem C5_tick_labels_witness :
    ((genTicks ⟨520, 100, 0, 1, 4, []⟩).get ⟨1, by decide⟩).fractionLabel
        = some (1, (4 : ℤ)) ∧
    ((genTicks ⟨520, 100, 0, 1, 4, []⟩).get ⟨1, by decide⟩).label = none :=
  ((C5_tick_labels ⟨520, 100, 0, 1, 4, []⟩).1 1 (by decide)).2.2.1 (by decide) rfl

/-- Witness for C10 at d = 4, k = 2. -/
theorem C10_zero_remainder_simplifies_witness :
    simplifyFraction 0 4 = ⟨0, 1⟩ ∧
    toMixedNumber (2 * 4) 4 = some ⟨2, 0, 1⟩ ∧
    dotLabel ⟨2 * 4, 4, true⟩ = DotLabel.wholeOnly 2 :=
  ⟨(C10_zero_remainder_simplifies 4 (by decide)).1,
   ((C10_zero_remainder_simplifies 4 (by decide)).2 2 (by decide)).1,
   ((C10_zero_remainder_simplifies 4 (by decide)).2 2 (by decide)).2⟩

/- findIndex semantics: a some result decomposes the list at the first
matching element and describes the two copy-and-replace updates. -/
theorem findIdxO_some_decomp {α : Type} (pred : α → Bool) (f : α → α) :
    ∀ (l : List α) (i : ℕ), findIdxO pred l = some i →
      ∃ a pre post, l = pre ++ a :: post ∧ pre.length = i ∧ pred a = true ∧
        (∀ e ∈ pre, pred e = false) ∧
        removeIdx i l = pre ++ post ∧ modifyIdx f i l = pre ++ f a :: post := by
  intro l
  induction l with
  | nil => intro i h; simp [findIdxO] at h
  | cons a l ih =>
    intro i h
    cases hpa : pred a with
    | true =>
      rw [findIdxO, if_pos hpa] at h
      injection h with h
      subst h
      exact ⟨a, [], l, rfl, rfl, hpa, by simp, rfl, rfl⟩
    | false =>
      rw [findIdxO, if_neg (by simp [hpa])] at h
      rcases Option.map_eq_some'.mp h with ⟨j, hj, hji⟩
      subst hji
      obtain ⟨b, pre, post, hl, hlen, hb, hpre, hrem, hmod⟩ := ih j hj
      refine ⟨b, a :: pre, post, by simp [hl], by simp [hlen], hb, ?_, ?_, ?_⟩
      · intro e he
        rcases List.mem_cons.mp he with rfl | he
        · exact hpa
        · exact hpre e he
      · simp only [removeIdx, hrem, List.cons_append]
      · simp only [modifyIdx, hmod, List.cons_append]

theorem findIdxO_some_lt_length {α : Type} (pred : α → Bool) (l : List α) (i : ℕ)
    (h : findIdxO pred l = some i) : i < l.length := by
  obtain ⟨a, pre, post, hl, hlen, _, _, _, _⟩ :=
    findIdxO_some_decomp pred id l i h
  subst hl
  simp [← hlen]

/- The fold of the source computes snapGo once the minimum is finite. -/
theorem foldl_snapStep_eq (clickX : ℚ) :
    ∀ (l : List Tick) (b : Tick) (m : ℚ),
      (l.foldl (snapStep clickX) (b, some m)).1 = snapGo clickX l b m := by
  intro l
  induction l with
  | nil => intro b m; rfl
  | cons t l ih =>
    intro b m
    rw [List.foldl_cons, snapGo]
    by_cases hd : |t.x - clickX| < m
    · rw [if_pos hd]
      have hstep : snapStep clickX (b, some m) t = (t, some |t.x - clickX|) := by
        simp [snapStep, hd]
      rw [hstep, ih]
    · rw [if_neg hd]
      have hstep : snapStep clickX (b, some m) t = (b, some m) := by
        simp [snapStep, hd]
      rw [hstep, ih]

/- snapGo returns the first tick of minimal distance among the candidate and
the remaining list: everything strictly before it is strictly farther,
everything after it is at least as far. -/
theorem snapGo_first_min (clickX : ℚ) :
    ∀ (l : List Tick) (b : Tick),
      ∃ pre post,
        b :: l = pre ++ snapGo clickX l b |b.x - clickX| :: post ∧
        (∀ u ∈ pre, |(snapGo clickX l b |b.x - clickX|).x - clickX| < |u.x - clickX|) ∧
        (∀ u ∈ post, |(snapGo clickX l b |b.x - clickX|).x - clickX| ≤ |u.x - clickX|) := by
  intro l
  induction l with
  | nil =>
    intro b
    exact ⟨[], [], rfl, by simp, by simp⟩
  | cons t l ih =>
    intro b
    rw [snapGo]
    by_cases hd : |t.x - clickX| < |b.x - clickX|
    · rw [if_pos hd]
      obtain ⟨pre, post, hl, hpre, hpost⟩ := ih t
      have hrt : |(snapGo clickX l t |t.x - clickX|).x - clickX| ≤ |t.x - clickX| := by
        cases pre with
        | nil =>
          rw [List.nil_append] at hl
          injection hl with h1 _
          rw [← h1]
        | cons q pre' =>
          rw [List.cons_append] at hl
          injection hl with h1 _
          exact le_of_lt (hpre t (h1 ▸ List.mem_cons_self q _))
      refine ⟨b :: pre, post, by rw [List.cons_append, ← hl], ?_, hpost⟩
      intro u hu
      rcases List.mem_cons.mp hu with rfl | hu
      · exact lt_of_le_of_lt hrt hd
      · exact hpre u hu
    · rw [if_neg hd]
      have hbd : |b.x - clickX| ≤ |t.x - clickX| := not_lt.mp hd
      obtain ⟨pre, post, hl, hpre, hpost⟩ := ih b
      cases pre with
      | nil =>
        rw [List.nil_append] at hl
        injection hl with h1 h2
        refine ⟨[], t :: post, ?_, by simp, ?_⟩
        · rw [List.nil_append, ← h1, ← h2]
        · intro u hu
          rcases List.mem_cons.mp hu with rfl | hu
          · rw [← h1]; exact hbd
          · exact hpost u hu
      | cons q pre' =>
        rw [List.cons_append] at hl
        injection hl with h1 h2
        have hrb : |(snapGo clickX l b |b.x - clickX|).x - clickX| < |b.x - clickX| :=
          hpre b (h1 ▸ List.mem_cons_self q _)
        refine ⟨b :: t :: pre', post, ?_, ?_, hpost⟩
        · rw [List.cons_append, List.cons_append, ← h2]
        · intro u hu
          rcases List.mem_cons.mp hu with rfl | hu
          · exact hrb
          · rcases List.mem_cons.mp hu with rfl | hu
            · exact lt_of_lt_of_le hrb hbd
            · exact hpre u (h1 ▸ List.mem_cons_of_mem q hu)

/- The source scan (ticks[0] candidate, Infinity minimum, strict improvement)
returns the first tick at minimum horizontal distance from the click. -/
theorem snapTick_first_min (clickX : ℚ) (l : List Tick) (hl : l ≠ []) :
    ∃ t pre post, snapTick clickX l = some t ∧ l = pre ++ t :: post ∧
      (∀ u ∈ pre, |t.x - clickX| < |u.x - clickX|) ∧
      (∀ u ∈ post, |t.x - clickX| ≤ |u.x - clickX|) := by
  cases l with
  | nil => exact absurd rfl hl
  | cons t0 rest =>
    have hfold : snapTick clickX (t0 :: rest)
        = some (snapGo clickX rest t0 |t0.x - clickX|) := by
      rw [snapTick]
      congr 1
      rw [List.foldl_cons]
      have hstep : snapStep clickX (t0, none) t0 = (t0, some |t0.x - clickX|) := rfl
      rw [hstep, foldl_snapStep_eq]
    obtain ⟨pre, post, hl2, hpre, hpost⟩ := snapGo_first_min clickX rest t0
    exact ⟨snapGo clickX rest t0 |t0.x - clickX|, pre, post, hfold, hl2, hpre, hpost⟩

theorem genTicks_ne_nil (p : NLProps) (hv : isValidRange p) : genTicks p ≠ [] := by
  have hlen : (genTicks p).length ≠ 0 := by
    rw [genTicks_length, tickCount, if_pos hv]
    exact Nat.succ_ne_zero _
  intro h
  exact hlen (by rw [h]; rfl)

/- Reduction of the handler on a click with the select tool, a valid range, no
fraction-label hot-zone hit and inside the interactive band: what remains is
the remove-or-add decision. -/
theorem handleLineClick_inBand (p : NLProps) (clickX clickY : ℚ)
    (hv : isValidRange p)
    (hhot : findIdxO (inFractionLabelZone p clickX clickY) p.dots = none)
    (hy : ¬(clickY < lineY p - 25 ∨ clickY > lineY p + 25))
    (hx : ¬(clickX < lineStart - 10 ∨ clickX > lineEnd p + 10)) :
    handleLineClick p "select" clickX clickY =
      match findIdxO (nearDot p clickX) p.dots with
      | some i => ⟨some (removeIdx i p.dots), true⟩
      | none =>
        match snapTick clickX (genTicks p) with
        | none => ⟨none, true⟩
        | some t =>
          ⟨some (p.dots ++
            [⟨round ((t.value - p.startValue) * (p.partition : ℚ)), (p.partition : ℤ), false⟩]),
            true⟩ := by
  rw [handleLineClick, if_neg (not_not_intro rfl), if_neg (not_not_intro hv)]
  simp only [hhot]
  rw [if_neg hy, if_neg hx]

/-- C3: when the dot-placement branch runs (select tool, valid range, no
hot-zone hit, inside the band, no existing dot within 12 px), the inserted dot
has denominator equal to the current partition (positive, hence nonzero) and
numerator round((tick.value − startValue) · partition) for the first tick at
minimum horizontal distance from the click; in particular, snapping to tick
index 2 under partition 4 and startValue 0 stores numerator 2, denominator 4. -/
theorem C3_dot_placement (p : NLProps) (clickX clickY : ℚ) (hpart : 1 ≤ p.partition)
    (hv : isValidRange p)
    (hhot : findIdxO (inFractionLabelZone p clickX clickY) p.dots = none)
    (hy : ¬(clickY < lineY p - 25 ∨ clickY > lineY p + 25))
    (hx : ¬(clickX < lineStart - 10 ∨ clickX > lineEnd p + 10))
    (hnear : findIdxO (nearDot p clickX) p.dots = none) :
    (∃ t pre post,
      genTicks p = pre ++ t :: post ∧
      (∀ u ∈ pre, |t.x - clickX| < |u.x - clickX|) ∧
      (∀ u ∈ post, |t.x - clickX| ≤ |u.x - clickX|) ∧
      handleLineClick p "select" clickX clickY =
        ⟨some (p.dots ++
          [⟨round ((t.value - p.startValue) * (p.partition : ℚ)), (p.partition : ℤ), false⟩]),
          true⟩ ∧
      (0 : ℤ) < (p.partition : ℤ)) ∧
    handleLineClick ⟨520, 100, 0, 1, 4, []⟩ "select" 260 50
      = ⟨some [⟨2, 4, false⟩], true⟩ := by
  constructor
  · obtain ⟨t, pre, post, hsnap, hl, hpre, hpost⟩ :=
      snapTick_first_min clickX (genTicks p) (genTicks_ne_nil p hv)
    refine ⟨t, pre, post, hl, hpre, hpost, ?_, by exact_mod_cast hpart⟩
    rw [handleLineClick_inBand p clickX clickY hv hhot hy hx]
    simp only [hnear, hsnap]
  · decide

/-- Witness for C3: the placement branch at w 520, h 100, startValue 0,
endValue 1, partition 4, no dots, click (260, 50). -/
theorem C3_dot_placement_witness :
    ∃ t pre post,
      genTicks ⟨520, 100, 0, 1, 4, []⟩ = pre ++ t :: post ∧
      (∀ u ∈ pre, |t.x - (260 : ℚ)| < |u.x - (260 : ℚ)|) ∧
      (∀ u ∈ post, |t.x - (260 : ℚ)| ≤ |u.x - (260 : ℚ)|) ∧
      handleLineClick ⟨520, 100, 0, 1, 4, []⟩ "select" 260 50 =
        ⟨some ([] ++ [⟨round ((t.value - 0) * ((4 : ℕ) : ℚ)), ((4 : ℕ) : ℤ), false⟩]), true⟩ ∧
      (0 : ℤ) < ((4 : ℕ) : ℤ) :=
  (C3_dot_placement ⟨520, 100, 0, 1, 4, []⟩ 260 50 (by decide) (by decide) (by decide)
    (by decide) (by decide) (by decide)).1

/-- C6: when the removal branch runs (select tool, valid range, no hot-zone
hit, inside the band) and some dot is within 12 px of the click, the handler
removes exactly the first such dot, leaving the other dots in order and adding
none. -/
theorem C6_remove_dot (p : NLProps) (clickX clickY : ℚ) (i : ℕ)
    (hv : isValidRange p)
    (hhot : findIdxO (inFractionLabelZone p clickX clickY) p.dots = none)
    (hy : ¬(clickY < lineY p - 25 ∨ clickY > lineY p + 25))
    (hx : ¬(clickX < lineStart - 10 ∨ clickX > lineEnd p + 10))
    (hnear : findIdxO (nearDot p clickX) p.dots = some i) :
    ∃ d pre post,
      p.dots = pre ++ d :: post ∧
      pre.length = i ∧
      nearDot p clickX d = true ∧
      (∀ e ∈ pre, nearDot p clickX e = false) ∧
      handleLineClick p "select" clickX clickY = ⟨some (pre ++ post), true⟩ := by
  obtain ⟨d, pre, post, hl, hlen, hd, hpre, hrem, _⟩ :=
    findIdxO_some_decomp (nearDot p clickX) id p.dots i hnear
  refine ⟨d, pre, post, hl, hlen, hd, hpre, ?_⟩
  rw [handleLineClick_inBand p clickX clickY hv hhot hy hx]
  simp only [hnear, hrem]

/-- Witness for C6: two dots at 1/4 and 2/4 on the 0..1 line partitioned in 4;
a click at x = 260 (the rendered position of the second dot) removes exactly
that dot. -/
theorem C6_remove_dot_witness :
    ∃ d pre post,
      ([⟨1, 4, false⟩, ⟨2, 4, false⟩] : List Dot) = pre ++ d :: post ∧
      pre.length = 1 ∧
      nearDot ⟨520, 100, 0, 1, 4, [⟨1, 4, false⟩, ⟨2, 4, false⟩]⟩ 260 d = true ∧
      (∀ e ∈ pre, nearDot ⟨520, 100, 0, 1, 4, [⟨1, 4, false⟩, ⟨2, 4, false⟩]⟩ 260 e = false) ∧
      handleLineClick ⟨520, 100, 0, 1, 4, [⟨1, 4, false⟩, ⟨2, 4, false⟩]⟩ "select" 260 50
        = ⟨some (pre ++ post), true⟩ :=
  C6_remove_dot ⟨520, 100, 0, 1, 4, [⟨1, 4, false⟩, ⟨2, 4, false⟩]⟩ 260 50 1
    (by decide) (by decide) (by decide) (by decide) (by decide)

/-- C7: the handler stops propagation exactly when it issues a dots update;
a click outside the interactive band that hits no fraction-label hot-zone
leaves the dots unchanged (no patch) and does not stop propagation; and every
issued patch is a whole-sequence replacement — a copy with one dot toggled, a
copy with one dot removed, or a copy with one dot appended. -/
theorem C7_propagation_and_replacement (p : NLProps) (tool : String) (clickX clickY : ℚ) :
    ((handleLineClick p tool clickX clickY).stopped = true ↔
      (handleLineClick p tool clickX clickY).patch ≠ none) ∧
    ((findIdxO (inFractionLabelZone p clickX clickY) p.dots = none ∧
      (clickY < lineY p - 25 ∨ clickY > lineY p + 25 ∨
       clickX < lineStart - 10 ∨ clickX > lineEnd p + 10)) →
      handleLineClick p tool clickX clickY = ⟨none, false⟩) ∧
    (∀ l, (handleLineClick p tool clickX clickY).patch = some l →
      (∃ i, i < p.dots.length ∧ l = modifyIdx toggleMixed i p.dots) ∨
      (∃ i, i < p.dots.length ∧ l = removeIdx i p.dots) ∨
      (∃ d, l = p.dots ++ [d])) := by
  by_cases ht : tool = "select"
  case neg =>
    have hres : handleLineClick p tool clickX clickY = ⟨none, false⟩ := by
      rw [handleLineClick, if_pos ht]
    rw [hres]
    exact ⟨by simp, fun _ => rfl, fun l hl => by simp at hl⟩
  case pos =>
    subst ht
    by_cases hv : isValidRange p
    case neg =>
      have hres : handleLineClick p "select" clickX clickY = ⟨none, false⟩ := by
        rw [handleLineClick, if_neg (not_not_intro rfl), if_pos hv]
      rw [hres]
      exact ⟨by simp, fun _ => rfl, fun l hl => by simp at hl⟩
    case pos =>
      cases hhot : findIdxO (inFractionLabelZone p clickX clickY) p.dots with
      | some i =>
        have hres : handleLineClick p "select" clickX clickY
            = ⟨some (modifyIdx toggleMixed i p.dots), true⟩ := by
          rw [handleLineClick, if_neg (not_not_intro rfl), if_neg (not_not_intro hv)]
          simp only [hhot]
        rw [hres]
        refine ⟨by simp, fun hcond => ?_, fun l hl => ?_⟩
        · exact Option.noConfusion hcond.1
        · left
          refine ⟨i, findIdxO_some_lt_length _ _ _ hhot, ?_⟩
          simpa using hl.symm
      | none =>
        by_cases hy : clickY < lineY p - 25 ∨ clickY > lineY p + 25
        case pos =>
          have hres : handleLineClick p "select" clickX clickY = ⟨none, false⟩ := by
            rw [handleLineClick, if_neg (not_not_intro rfl), if_neg (not_not_intro hv)]
            simp only [hhot]
            rw [if_pos hy]
          rw [hres]
          exact ⟨by simp, fun _ => rfl, fun l hl => by simp at hl⟩
        case neg =>
          by_cases hx : clickX < lineStart - 10 ∨ clickX > lineEnd p + 10
          case pos =>
            have hres : handleLineClick p "select" clickX clickY = ⟨none, false⟩ := by
              rw [handleLineClick, if_neg (not_not_intro rfl), if_neg (not_not_intro hv)]
              simp only [hhot]
              rw [if_neg hy, if_pos hx]
            rw [hres]
            exact ⟨by simp, fun _ => rfl, fun l hl => by simp at hl⟩
          case neg =>
            have hband : ¬(clickY < lineY p - 25 ∨ clickY > lineY p + 25 ∨
                clickX < lineStart - 10 ∨ clickX > lineEnd p + 10) := by
              intro hcase
              rcases hcase with h | h | h | h
              · exact hy (Or.inl h)
              · exact hy (Or.inr h)
              · exact hx (Or.inl h)
              · exact hx (Or.inr h)
            have hmain := handleLineClick_inBand p clickX clickY hv hhot hy hx
            cases hnear : findIdxO (nearDot p clickX) p.dots with
            | some i =>
              rw [hnear] at hmain
              rw [hmain]
              refine ⟨by simp, fun hcond => absurd hcond.2 hband, fun l hl => ?_⟩
              right; left
              refine ⟨i, findIdxO_some_lt_length _ _ _ hnear, ?_⟩
              obtain ⟨d, pre, post, _, _, _, _, hrem, _⟩ :=
                findIdxO_some_decomp (nearDot p clickX) id p.dots i hnear
              simpa using hl.symm
            | none =>
              rw [hnear] at hmain
              cases hsnap : snapTick clickX (genTicks p) with
              | none =>
                exfalso
                cases hgen : genTicks p with
                | nil => exact genTicks_ne_nil p hv hgen
                | cons a rest =>
                  rw [hgen, snapTick] at hsnap
                  exact Option.some_ne_none _ hsnap
              | some t =>
                rw [hsnap] at hmain
                rw [hmain]
                refine ⟨by simp, fun hcond => absurd hcond.2 hband, fun l hl => ?_⟩
                right; right
                exact ⟨_, by simpa using hl.symm⟩

/-- Witness for C7: a click above the band (y = 200) with a dot present issues
no update and lets the event propagate. -/
theorem C7_propagation_and_replacement_witness :
    handleLineClick ⟨520, 100, 0, 1, 4, [⟨1, 4, false⟩]⟩ "select" 260 200
      = ⟨none, false⟩ :=
  (C7_propagation_and_replacement ⟨520, 100, 0, 1, 4, [⟨1, 4, false⟩]⟩
    "select" 260 200).2.1 ⟨by decide, by decide⟩

/-- C8: with endValue ≤ startValue the shape is in the degraded invalid-range
state: no ticks are generated, the placeholder message is shown, and every
pointer click leaves the dots unchanged (no update is issued and propagation
is not stopped). -/
theorem C8_invalid_range_degraded (p : NLProps) (hp : p.endValue ≤ p.startValue) :
    genTicks p = [] ∧ placeholderShown p = true ∧
    ∀ tool clickX clickY, handleLineClick p tool clickX clickY = ⟨none, false⟩ := by
  have hv : ¬ isValidRange p := by
    rw [isValidRange, valueRange]
    exact not_lt.mpr (by linarith)
  refine ⟨by simp [genTicks, tickCount, if_neg hv], by simp [placeholderShown, hv], ?_⟩
  intro tool clickX clickY
  by_cases ht : tool = "select"
  · subst ht
    rw [handleLineClick, if_neg (not_not_intro rfl), if_pos hv]
  · rw [handleLineClick, if_pos ht]

/-- Witness for C8 at the spec's example startValue 5, endValue 2. -/
theorem C8_invalid_range_degraded_witness :
    genTicks ⟨520, 100, 5, 2, 4, []⟩ = [] ∧
    placeholderShown ⟨520, 100, 5, 2, 4, []⟩ = true ∧
    handleLineClick ⟨520, 100, 5, 2, 4, []⟩ "select" 260 50 = ⟨none, false⟩ :=
  ⟨(C8_invalid_range_degraded ⟨520, 100, 5, 2, 4, []⟩ (by decide)).1,
   (C8_invalid_range_degraded ⟨520, 100, 5, 2, 4, []⟩ (by decide)).2.1,
   (C8_invalid_range_degraded ⟨520, 100, 5, 2, 4, []⟩ (by decide)).2.2 "select" 260 50⟩

end NumberLine

/-- C9: on every text change, both auto-resize rules keep the height, never
shrink the width, grow the width exactly to the recomputed needed width when
that exceeds the current width, and leave the shape unchanged otherwise. -/
theorem C9_autoResize_width_only
    (pf : FractionShape.FractionProps) (newNumerator newDenominator : String)
    (pm : MixedNumberShape.MixedProps) (mw mn md ms : String) :
    ((FractionShape.autoResizeIfNeeded pf newNumerator newDenominator).h = pf.h ∧
     pf.w ≤ (FractionShape.autoResizeIfNeeded pf newNumerator newDenominator).w ∧
     (pf.w < FractionShape.neededWidth pf newNumerator newDenominator →
       (FractionShape.autoResizeIfNeeded pf newNumerator newDenominator).w
         = FractionShape.neededWidth pf newNumerator newDenominator) ∧
     (¬ pf.w < FractionShape.neededWidth pf newNumerator newDenominator →
       FractionShape.autoResizeIfNeeded pf newNumerator newDenominator = pf)) ∧
    ((MixedNumberShape.autoResizeIfNeeded pm mw mn md ms).h = pm.h ∧
     pm.w ≤ (MixedNumberShape.autoResizeIfNeeded pm mw mn md ms).w ∧
     (pm.w < MixedNumberShape.neededWidth pm mw mn md ms →
       (MixedNumberShape.autoResizeIfNeeded pm mw mn md ms).w
         = MixedNumberShape.neededWidth pm mw mn md ms) ∧
     (¬ pm.w < MixedNumberShape.neededWidth pm mw mn md ms →
       MixedNumberShape.autoResizeIfNeeded pm mw mn md ms = pm)) := by
  constructor
  · rw [FractionShape.autoResizeIfNeeded]
    by_cases hgrow : FractionShape.neededWidth pf newNumerator newDenominator > pf.w
    · rw [if_pos hgrow]
      exact ⟨rfl, le_of_lt hgrow, fun _ => rfl, fun hn => absurd hgrow hn⟩
    · rw [if_neg hgrow]
      exact ⟨rfl, le_refl _, fun hlt => absurd hlt hgrow, fun _ => rfl⟩
  · rw [MixedNumberShape.autoResizeIfNeeded]
    by_cases hgrow : MixedNumberShape.neededWidth pm mw mn md ms > pm.w
    · rw [if_pos hgrow]
      exact ⟨rfl, le_of_lt hgrow, fun _ => rfl, fun hn => absurd hgrow hn⟩
    · rw [if_neg hgrow]
      exact ⟨rfl, le_refl _, fun hlt => absurd hlt hgrow, fun _ => rfl⟩

/-- Witness for C9: typing "12345" into a 60-wide fraction grows it to the
needed width; a short mixed number in a 100-wide shape is left unchanged. -/
theorem C9_autoResize_width_only_witness :
    (FractionShape.autoResizeIfNeeded ⟨60, 60, "1", "2"⟩ "12345" "2").w
      = FractionShape.neededWidth ⟨60, 60, "1", "2"⟩ "12345" "2" ∧
    MixedNumberShape.autoResizeIfNeeded ⟨100, 60, "1", "1", "2", ""⟩ "1" "1" "2" ""
      = ⟨100, 60, "1", "1", "2", ""⟩ :=
  ⟨((C9_autoResize_width_only ⟨60, 60, "1", "2"⟩ "12345" "2"
      ⟨100, 60, "1", "1", "2", ""⟩ "1" "1" "2" "").1.2.2.1 (by decide)),
   ((C9_autoResize_width_only ⟨60, 60, "1", "2"⟩ "12345" "2"
      ⟨100, 60, "1", "1", "2", ""⟩ "1" "1" "2" "").2.2.2.2 (by decide))⟩
